import Mathlib

/-!
Verification of the per-pixel shading algorithm of the black-hole renderer.

The fragment shader is shallowly embedded over the real numbers: GLSL
vectors become `Vec3` / `Vec4` records of reals, GLSL built-ins
(`clamp`, `mix`, `smoothstep`, `fract`, `floor`, `pow`, `normalize`,
`cross`, `dot`, `length`) become the corresponding real-valued
functions, and each shader function (`hash13`, `rotateAround`,
`starfield`, `diskColor`, `bendRay`, `intersectDisk`, `main`) becomes a
Lean definition with the same structure.  The named denominator
sub-expressions (`bendDenom`, `diskDenom`, `redshiftDenom`,
`dopplerDenom`, `tempDenom`) are factored out verbatim so that the
division-safety statements can refer to them directly.
-/

noncomputable section

/-- 3-component vector of reals, the embedding of GLSL `vec3`. -/
structure Vec3 where
  x : ℝ
  y : ℝ
  z : ℝ

/-- 4-component vector of reals, the embedding of GLSL `vec4`. -/
structure Vec4 where
  x : ℝ
  y : ℝ
  z : ℝ
  w : ℝ

namespace Vec3

/-- Componentwise vector addition. -/
def add (a b : Vec3) : Vec3 := ⟨a.x + b.x, a.y + b.y, a.z + b.z⟩

/-- Vector times scalar, `v * r` in GLSL. -/
def scale (v : Vec3) (r : ℝ) : Vec3 := ⟨v.x * r, v.y * r, v.z * r⟩

/-- Componentwise negation, `-v` in GLSL. -/
def neg (v : Vec3) : Vec3 := ⟨-v.x, -v.y, -v.z⟩

/-- Vector plus scalar broadcast, `v + r` in GLSL. -/
def addScalar (v : Vec3) (r : ℝ) : Vec3 := ⟨v.x + r, v.y + r, v.z + r⟩

/-- Euclidean inner product, GLSL `dot`. -/
def dot (a b : Vec3) : ℝ := a.x * b.x + a.y * b.y + a.z * b.z

/-- Cross product, GLSL `cross`. -/
def cross (a b : Vec3) : Vec3 :=
  ⟨a.y * b.z - a.z * b.y, a.z * b.x - a.x * b.z, a.x * b.y - a.y * b.x⟩

/-- Euclidean norm, GLSL `length`. -/
def length (v : Vec3) : ℝ := Real.sqrt (dot v v)

/-- GLSL `normalize`: divide every component by the norm. -/
def normalize (v : Vec3) : Vec3 := ⟨v.x / length v, v.y / length v, v.z / length v⟩

/-- Componentwise fractional part, GLSL `fract`. -/
def fractV (v : Vec3) : Vec3 := ⟨Int.fract v.x, Int.fract v.y, Int.fract v.z⟩

/-- Componentwise floor, GLSL `floor`. -/
def floorV (v : Vec3) : Vec3 := ⟨(⌊v.x⌋ : ℝ), (⌊v.y⌋ : ℝ), (⌊v.z⌋ : ℝ)⟩

/-- Swizzle `v.yzx`. -/
def yzx (v : Vec3) : Vec3 := ⟨v.y, v.z, v.x⟩

end Vec3

/-- Scale a `vec4` by a scalar. -/
def Vec4.scale (v : Vec4) (r : ℝ) : Vec4 := ⟨v.x * r, v.y * r, v.z * r, v.w * r⟩

/-- GLSL `vec4(c, w)` built from a `vec3` and a scalar. -/
def vec4Of (c : Vec3) (w : ℝ) : Vec4 := ⟨c.x, c.y, c.z, w⟩

/-- GLSL `clamp(x, lo, hi) = min(max(x, lo), hi)`. -/
def clampR (x lo hi : ℝ) : ℝ := min (max x lo) hi

/-- GLSL `mix(a, b, t) = a*(1-t) + b*t`. -/
def mixR (a b t : ℝ) : ℝ := a * (1 - t) + b * t

/-- Componentwise `mix` for vectors with a scalar weight. -/
def Vec3.mixV (a b : Vec3) (t : ℝ) : Vec3 :=
  ⟨mixR a.x b.x t, mixR a.y b.y t, mixR a.z b.z t⟩

/-- GLSL `smoothstep(e0, e1, x)`. -/
def smoothstepR (e0 e1 x : ℝ) : ℝ :=
  let t := clampR ((x - e0) / (e1 - e0)) 0 1
  t * t * (3 - 2 * t)

/-- The shader's pseudo-random hash `hash13`: fold a 3D coordinate to a
scalar via `fract` / `dot` mixing. -/
def hash13 (p : Vec3) : ℝ :=
  let p1 := Vec3.fractV (Vec3.add (Vec3.scale p 0.3183099) ⟨0.1, 0.2, 0.3⟩)
  let p2 := Vec3.addScalar p1 (Vec3.dot p1 (Vec3.addScalar (Vec3.yzx p1) 19.19))
  Int.fract (p2.x * p2.y * p2.z)

/-- `rotateAround`: rotate `v` about `axis` by `angle` with Rodrigues'
formula, exactly as in the shader (`c`, `s` inlined). -/
def rotateAround (v axis : Vec3) (angle : ℝ) : Vec3 :=
  Vec3.add
    (Vec3.add (Vec3.scale v (Real.cos angle))
      (Vec3.scale (Vec3.cross axis v) (Real.sin angle)))
    (Vec3.scale axis (Vec3.dot axis v * (1 - Real.cos angle)))

/-- `starfield`: direction-indexed background of stars and faint nebula. -/
def starfield (dir : Vec3) : Vec3 :=
  let p := Vec3.scale (Vec3.normalize dir) 123
  let d := smoothstepR 0.995 1 (hash13 (Vec3.floorV (Vec3.scale p 20)))
  let m := Real.rpow d 24
  let col := Vec3.scale
    ⟨0.6 + 0.4 * hash13 (Vec3.addScalar p 1),
     0.7 + 0.3 * hash13 (Vec3.addScalar p 2), 1⟩ m
  let n := hash13 (Vec3.floorV (Vec3.scale dir 10))
  Vec3.add col (Vec3.scale ⟨0.02, 0.01, 0.03⟩ n)

/-- Keplerian orbital speed of disk material,
`clamp(sqrt(rs/(2r)), 0, 0.6)`. -/
def kepV (rs r : ℝ) : ℝ := clampR (Real.sqrt (rs / (2 * r))) 0 0.6

/-- Denominator of the Doppler ratio, `sqrt(1 - v*v)`. -/
def dopplerDenom (v : ℝ) : ℝ := Real.sqrt (1 - v * v)

/-- Relativistic beaming factor `((1 - v*cosTheta)/sqrt(1 - v^2))^(-3)`. -/
def dopplerFactor (v cosTheta : ℝ) : ℝ :=
  Real.rpow ((1 - v * cosTheta) / dopplerDenom v) (-3)

/-- Denominator of the radial temperature blend, `diskOuter - diskInner`. -/
def tempDenom (diskInner diskOuter : ℝ) : ℝ := diskOuter - diskInner

/-- `diskColor`: beamed accretion-disk color at a point of the `y = 0`
plane seen along `dir`; zero outside the annulus. -/
def diskColor (pos dir : Vec3) (rs diskInner diskOuter : ℝ) : Vec3 :=
  let r := Real.sqrt (pos.x ^ 2 + pos.z ^ 2)
  if r < diskInner ∨ diskOuter < r then ⟨0, 0, 0⟩ else
  let v := kepV rs r
  let tangential := Vec3.normalize ⟨-pos.z, 0, pos.x⟩
  let cosTheta := Vec3.dot tangential (Vec3.neg dir)
  let doppler := dopplerFactor v cosTheta
  let t := clampR ((diskOuter - r) / tempDenom diskInner diskOuter) 0 1
  let base := Vec3.mixV ⟨0.8, 0.4, 0.1⟩ ⟨1, 0.95, 0.85⟩ (Real.rpow t 0.6)
  Vec3.scale base (doppler * 0.6)

/-- Guarded denominator of the deflection angle, `max(b, 1e-5)`. -/
def bendDenom (b : ℝ) : ℝ := max b 1e-5

/-- `bendRay`: weak-field single-bend deflection.  Returns the new
direction together with the capture flag (`1` captured, `0` free),
exactly as the shader's `out float capture`. -/
def bendRay (ro rd : Vec3) (rsLocal : ℝ) : Vec3 × ℝ :=
  let b := Vec3.length (Vec3.cross ro rd)
  let bc := 2.59807621135 * rsLocal
  if b < bc then (rd, 1)
  else
    let alpha := 2 * rsLocal / bendDenom b
    let axis := Vec3.normalize (Vec3.cross ro rd)
    (rotateAround rd axis alpha, 0)

/-- Guarded denominator of the disk-plane intersection, `rd.y + 1e-6`. -/
def diskDenom (rd : Vec3) : ℝ := rd.y + 1e-6

/-- `intersectDisk`: forward-only intersection of a ray with the plane
`y = 0`. -/
def intersectDisk (ro rd : Vec3) : Option Vec3 :=
  let t := -ro.y / diskDenom rd
  if t ≤ 0 then none else some (Vec3.add ro (Vec3.scale rd t))

/-- Guarded denominator of the redshift ratio, `max(r, 1e-3)`. -/
def redshiftDenom (r : ℝ) : ℝ := max r 1e-3

/-- Gravitational redshift factor `sqrt(max(1 - rs/max(r,1e-3), 1e-4))`. -/
def redshift (rs r : ℝ) : ℝ :=
  Real.sqrt (max (1 - rs / redshiftDenom r) 0.0001)

/-- Per-channel Reinhard tone map `c / (c + 1)`. -/
def tonemapChannel (c : ℝ) : ℝ := c / (c + 1)

/-- Componentwise tone mapping, `col / (col + 1)` in the shader. -/
def tonemap (v : Vec3) : Vec3 :=
  ⟨tonemapChannel v.x, tonemapChannel v.y, tonemapChannel v.z⟩

/-- Aspect-corrected NDC coordinates of a pixel:
`uv = (frag/res)*2 - 1`, then `uv.x *= res.x/res.y`. -/
def computeUV (fx fy rx ry : ℝ) : ℝ × ℝ :=
  ((fx / rx * 2 - 1) * (rx / ry), fy / ry * 2 - 1)

/-- Camera ray direction, `normalize(vec3(uv, -1.5))`. -/
def cameraRay (ux uy : ℝ) : Vec3 := Vec3.normalize ⟨ux, uy, -1.5⟩

/-- Photon-ring glow profile `exp(-30*|b - bc|)`. -/
def ringGlow (b bc : ℝ) : ℝ := Real.exp (-30 * |b - bc|)

/-- The body of the shader's `main`, as a function of the aspect-corrected
NDC coordinates and the uniforms; produces the `gl_FragColor` value. -/
def mainColor (ux uy rs camDistance diskInner diskOuter : ℝ) : Vec4 :=
  let ro : Vec3 := ⟨0, 0, camDistance⟩
  let rd : Vec3 := cameraRay ux uy
  let bent := bendRay ro rd rs
  if 0.5 < bent.2 then
    let b := Vec3.length (Vec3.cross ro rd)
    let bc := 2.59807621135 * rs
    let edge := smoothstepR (bc * 0.9) (bc * 1.05) b
    Vec4.scale (vec4Of ⟨0, 0, 0⟩ 1) (1 - (1 - edge) * 0.06)
  else
    let rd2 := bent.1
    let bg := starfield rd2
    let col :=
      match intersectDisk ro rd2 with
      | none => bg
      | some hit =>
        let r := Real.sqrt (hit.x ^ 2 + hit.z ^ 2)
        if 1.05 * rs < r then
          let dcol := Vec3.scale (diskColor hit rd2 rs diskInner diskOuter) (redshift rs r)
          let alpha := smoothstepR diskOuter diskInner r * 0.85
          Vec3.mixV bg dcol alpha
        else bg
    let b := Vec3.length (Vec3.cross ro rd)
    let bc := 2.59807621135 * rs
    let colRing := Vec3.add col (Vec3.scale ⟨1, 0.9, 0.7⟩ (ringGlow b bc * 0.35))
    let vig := smoothstepR 1.4 0.1 (Real.sqrt (ux ^ 2 + uy ^ 2))
    let colVig := Vec3.scale colRing (mixR 0.6 1 vig)
    let colTone := tonemap colVig
    vec4Of colTone 1

/-- One full pixel evaluation: NDC mapping followed by `mainColor`. -/
def renderPixel (fx fy rx ry rs camDistance diskInner diskOuter : ℝ) : Vec4 :=
  mainColor (computeUV fx fy rx ry).1 (computeUV fx fy rx ry).2
    rs camDistance diskInner diskOuter

/-! ## Helper lemmas about the vector algebra -/

lemma Vec3.dot_self_nonneg (v : Vec3) : 0 ≤ Vec3.dot v v := by
  unfold Vec3.dot
  nlinarith [mul_self_nonneg v.x, mul_self_nonneg v.y, mul_self_nonneg v.z]

lemma Vec3.length_nonneg (v : Vec3) : 0 ≤ Vec3.length v := Real.sqrt_nonneg _

lemma Vec3.length_sq (v : Vec3) : Vec3.length v * Vec3.length v = Vec3.dot v v := by
  unfold Vec3.length
  exact Real.mul_self_sqrt (Vec3.dot_self_nonneg v)

lemma Vec3.dot_self_of_length_one (v : Vec3) (h : Vec3.length v = 1) :
    Vec3.dot v v = 1 := by
  have := Vec3.length_sq v
  rw [h] at this
  linarith

lemma Vec3.cross_dot_right (a b : Vec3) : Vec3.dot (Vec3.cross a b) b = 0 := by
  unfold Vec3.dot Vec3.cross
  ring

lemma Vec3.cross_dot_left (a b : Vec3) : Vec3.dot (Vec3.cross a b) a = 0 := by
  unfold Vec3.dot Vec3.cross
  ring

lemma Vec3.dot_normalize_left (v w : Vec3) :
    Vec3.dot (Vec3.normalize v) w = Vec3.dot v w / Vec3.length v := by
  unfold Vec3.normalize Vec3.dot
  ring

lemma Vec3.normalize_dot_self (v : Vec3) (h : 0 < Vec3.dot v v) :
    Vec3.dot (Vec3.normalize v) (Vec3.normalize v) = 1 := by
  have hl : 0 < Vec3.length v := Real.sqrt_pos.mpr h
  have hsq := Vec3.length_sq v
  unfold Vec3.normalize Vec3.dot
  unfold Vec3.dot at hsq
  field_simp
  linarith

lemma Vec3.abs_dot_le_one (u w : Vec3) (hu : Vec3.dot u u = 1)
    (hw : Vec3.dot w w = 1) : -1 ≤ Vec3.dot u w ∧ Vec3.dot u w ≤ 1 := by
  have key : Vec3.dot u w * Vec3.dot u w ≤ 1 := by
    unfold Vec3.dot at hu hw ⊢
    nlinarith [sq_nonneg (u.x * w.y - u.y * w.x), sq_nonneg (u.x * w.z - u.z * w.x),
      sq_nonneg (u.y * w.z - u.z * w.y)]
  constructor <;> nlinarith [key]

lemma Vec3.dot_neg_right (u w : Vec3) :
    Vec3.dot u (Vec3.neg w) = -Vec3.dot u w := by
  unfold Vec3.dot Vec3.neg
  ring

lemma Vec3.dot_neg_self (w : Vec3) :
    Vec3.dot (Vec3.neg w) (Vec3.neg w) = Vec3.dot w w := by
  unfold Vec3.dot Vec3.neg
  ring

lemma rotateAround_dot_orig (v a : Vec3) (θ : ℝ)
    (hav : Vec3.dot a v = 0) (hv : Vec3.dot v v = 1) :
    Vec3.dot (rotateAround v a θ) v = Real.cos θ := by
  unfold rotateAround Vec3.dot Vec3.add Vec3.scale Vec3.cross at *
  linear_combination Real.cos θ * hv +
    ((1 - Real.cos θ) * (a.x * v.x + a.y * v.y + a.z * v.z)) * hav

lemma rotateAround_normSq (v a : Vec3) (θ : ℝ)
    (hav : Vec3.dot a v = 0) (hv : Vec3.dot v v = 1)
    (ha : Vec3.dot a a = 1) :
    Vec3.dot (rotateAround v a θ) (rotateAround v a θ) = 1 := by
  have hcs : Real.cos θ ^ 2 + Real.sin θ ^ 2 = 1 := Real.cos_sq_add_sin_sq θ
  unfold rotateAround Vec3.dot Vec3.add Vec3.scale Vec3.cross at *
  linear_combination (Real.cos θ ^ 2) * hv
    + (Real.sin θ ^ 2 * (a.x * a.x + a.y * a.y + a.z * a.z)) * hv
    + (Real.sin θ ^ 2) * ha
    + ((a.x * v.x + a.y * v.y + a.z * v.z) *
        (-(Real.sin θ ^ 2) + (1 - Real.cos θ) ^ 2 * (a.x * a.x + a.y * a.y + a.z * a.z)
          + 2 * Real.cos θ * (1 - Real.cos θ))) * hav
    + hcs

lemma clampR_mem (x lo hi : ℝ) (h : lo ≤ hi) :
    lo ≤ clampR x lo hi ∧ clampR x lo hi ≤ hi := by
  unfold clampR
  exact ⟨le_min (le_max_right _ _) h, min_le_right _ _⟩

lemma mixR_nonneg (a b t : ℝ) (ha : 0 ≤ a) (hb : 0 ≤ b) (h0 : 0 ≤ t)
    (h1 : t ≤ 1) : 0 ≤ mixR a b t := by
  unfold mixR
  nlinarith

/-! ## Claim theorems -/

/-- C9: the per-channel tone map `c / (c + 1)` sends every non-negative
input into `[0, 1)` and is strictly increasing on non-negative inputs. -/
theorem tonemap_bounded_mono :
    (∀ c : ℝ, 0 ≤ c → 0 ≤ tonemapChannel c ∧ tonemapChannel c < 1) ∧
    (∀ c d : ℝ, 0 ≤ c → c < d → tonemapChannel c < tonemapChannel d) := by
  constructor
  · intro c hc
    unfold tonemapChannel
    constructor
    · positivity
    · rw [div_lt_one (by linarith)]
      linarith
  · intro c d hc hcd
    unfold tonemapChannel
    rw [div_lt_div_iff (by linarith) (by linarith)]
    nlinarith

/-- Witness for C9 at the concrete channel values `0` and `1`. -/
theorem tonemap_bounded_mono_witness :
    (0 ≤ tonemapChannel 0 ∧ tonemapChannel 0 < 1) ∧
    tonemapChannel 0 < tonemapChannel 1 :=
  ⟨tonemap_bounded_mono.1 0 le_rfl, tonemap_bounded_mono.2 0 1 le_rfl one_pos⟩

/-- C3: a ray whose impact parameter is below the critical value is
captured: `bendRay` sets the capture flag to `1` and returns the
direction unchanged. -/
theorem bend_capture_below_critical (ro rd : Vec3) (rs : ℝ)
    (h : Vec3.length (Vec3.cross ro rd) < 2.59807621135 * rs) :
    bendRay ro rd rs = (rd, 1) := by
  unfold bendRay
  rw [if_pos h]

/-- Witness for C3: the screen-center ray at `rs = 1` has `b = 0 < b_c`. -/
theorem bend_capture_below_critical_witness :
    bendRay ⟨0, 0, 8⟩ ⟨0, 0, -1⟩ 1 = (⟨0, 0, -1⟩, 1) := by
  apply bend_capture_below_critical
  have : Vec3.cross ⟨0, 0, 8⟩ ⟨0, 0, -1⟩ = ⟨0, 0, 0⟩ := by
    unfold Vec3.cross
    norm_num
  rw [this]
  unfold Vec3.length Vec3.dot
  norm_num

/-- C8: for a fixed orbital speed `0 < v ≤ 0.6`, the Doppler factor is
strictly increasing in `cosθ` on `[-1, 1]`. -/
theorem doppler_strict_mono (v c1 c2 : ℝ) (hv0 : 0 < v) (hv6 : v ≤ 0.6)
    (h1 : -1 ≤ c1) (h12 : c1 < c2) (h2 : c2 ≤ 1) :
    dopplerFactor v c1 < dopplerFactor v c2 := by
  unfold dopplerFactor dopplerDenom
  have hd : 0 < Real.sqrt (1 - v * v) := Real.sqrt_pos.mpr (by nlinarith)
  have hb2 : 0 < (1 - v * c2) / Real.sqrt (1 - v * v) :=
    div_pos (by nlinarith) hd
  have hlt : (1 - v * c2) / Real.sqrt (1 - v * v)
      < (1 - v * c1) / Real.sqrt (1 - v * v) := by
    apply div_lt_div_of_pos_right ?_ hd
    nlinarith
  exact Real.rpow_lt_rpow_of_neg hb2 hlt (by norm_num)

/-- Witness for C8 at `v = 1/2`, `cosθ` going from `0` to `1`. -/
theorem doppler_strict_mono_witness :
    dopplerFactor 0.5 0 < dopplerFactor 0.5 1 :=
  doppler_strict_mono 0.5 0 1 (by norm_num) (by norm_num) (by norm_num)
    (by norm_num) (by norm_num)

/-- C7: the Disk Shader returns exactly the zero color outside the
annulus `[diskInner, diskOuter]` and a componentwise non-negative color
otherwise, for `0 < diskInner < diskOuter` and a unit view direction. -/
theorem disk_color_annulus (pos dir : Vec3) (rs diskInner diskOuter : ℝ)
    (hin : 0 < diskInner) (hio : diskInner < diskOuter)
    (hdir : Vec3.length dir = 1) :
    ((Real.sqrt (pos.x ^ 2 + pos.z ^ 2) < diskInner ∨
        diskOuter < Real.sqrt (pos.x ^ 2 + pos.z ^ 2)) →
      diskColor pos dir rs diskInner diskOuter = ⟨0, 0, 0⟩) ∧
    (0 ≤ (diskColor pos dir rs diskInner diskOuter).x ∧
      0 ≤ (diskColor pos dir rs diskInner diskOuter).y ∧
      0 ≤ (diskColor pos dir rs diskInner diskOuter).z) := by
  by_cases hcase : Real.sqrt (pos.x ^ 2 + pos.z ^ 2) < diskInner ∨
      diskOuter < Real.sqrt (pos.x ^ 2 + pos.z ^ 2)
  · have hz : diskColor pos dir rs diskInner diskOuter = ⟨0, 0, 0⟩ := by
      simp only [diskColor]
      rw [if_pos hcase]
    rw [hz]
    exact ⟨fun _ => rfl, le_refl 0, le_refl 0, le_refl 0⟩
  · push_neg at hcase
    have hr : diskInner ≤ Real.sqrt (pos.x ^ 2 + pos.z ^ 2) := hcase.1
    have hr0 : 0 < Real.sqrt (pos.x ^ 2 + pos.z ^ 2) := lt_of_lt_of_le hin hr
    have hrr : 0 < pos.x ^ 2 + pos.z ^ 2 := Real.sqrt_pos.mp hr0
    have hv := clampR_mem (Real.sqrt (rs / (2 * Real.sqrt (pos.x ^ 2 + pos.z ^ 2))))
      0 0.6 (by norm_num)
    have htan : Vec3.dot (Vec3.normalize ⟨-pos.z, 0, pos.x⟩)
        (Vec3.normalize ⟨-pos.z, 0, pos.x⟩) = 1 := by
      apply Vec3.normalize_dot_self
      simp only [Vec3.dot]
      nlinarith [hrr]
    have hnd : Vec3.dot (Vec3.neg dir) (Vec3.neg dir) = 1 := by
      rw [Vec3.dot_neg_self]
      exact Vec3.dot_self_of_length_one dir hdir
    have hcos := Vec3.abs_dot_le_one (Vec3.normalize ⟨-pos.z, 0, pos.x⟩)
      (Vec3.neg dir) htan hnd
    have hdop : 0 < dopplerFactor
        (kepV rs (Real.sqrt (pos.x ^ 2 + pos.z ^ 2)))
        (Vec3.dot (Vec3.normalize ⟨-pos.z, 0, pos.x⟩) (Vec3.neg dir)) := by
      unfold dopplerFactor dopplerDenom kepV
      apply Real.rpow_pos_of_pos
      apply div_pos
      · nlinarith [hv.1, hv.2, hcos.1, hcos.2]
      · apply Real.sqrt_pos.mpr
        nlinarith [hv.1, hv.2]
    have ht := clampR_mem ((diskOuter - Real.sqrt (pos.x ^ 2 + pos.z ^ 2)) /
      tempDenom diskInner diskOuter) 0 1 (by norm_num)
    have hw0 : (0:ℝ) ≤ Real.rpow (clampR ((diskOuter - Real.sqrt (pos.x ^ 2 + pos.z ^ 2)) /
        tempDenom diskInner diskOuter) 0 1) 0.6 :=
      Real.rpow_nonneg ht.1 _
    have hw1 : Real.rpow (clampR ((diskOuter - Real.sqrt (pos.x ^ 2 + pos.z ^ 2)) /
        tempDenom diskInner diskOuter) 0 1) 0.6 ≤ 1 :=
      Real.rpow_le_one ht.1 ht.2 (by norm_num)
    refine ⟨fun h => absurd h (by push_neg; exact hcase), ?_, ?_, ?_⟩ <;>
    · simp only [diskColor]
      rw [if_neg (by push_neg; exact hcase)]
      simp only [Vec3.scale, Vec3.mixV]
      apply mul_nonneg
      · exact mixR_nonneg _ _ _ (by norm_num) (by norm_num) hw0 hw1
      · exact mul_nonneg hdop.le (by norm_num)

/-- Witness for C7: disk between radii `2` and `8`, the point `(10,0,0)`
outside the annulus, view direction `(0,0,-1)`. -/
theorem disk_color_annulus_witness :
    ((Real.sqrt ((10:ℝ) ^ 2 + (0:ℝ) ^ 2) < 2 ∨
        (8:ℝ) < Real.sqrt ((10:ℝ) ^ 2 + (0:ℝ) ^ 2)) →
      diskColor ⟨10, 0, 0⟩ ⟨0, 0, -1⟩ 1 2 8 = ⟨0, 0, 0⟩) ∧
    (0 ≤ (diskColor ⟨10, 0, 0⟩ ⟨0, 0, -1⟩ 1 2 8).x ∧
      0 ≤ (diskColor ⟨10, 0, 0⟩ ⟨0, 0, -1⟩ 1 2 8).y ∧
      0 ≤ (diskColor ⟨10, 0, 0⟩ ⟨0, 0, -1⟩ 1 2 8).z) := by
  apply disk_color_annulus ⟨10, 0, 0⟩ ⟨0, 0, -1⟩ 1 2 8 (by norm_num) (by norm_num)
  unfold Vec3.length Vec3.dot
  norm_num

/-- Lower bound used for C4: the clamp inside the redshift factor keeps
it at or above `sqrt(1e-4) = 1/100` everywhere. -/
lemma redshift_lower (rs r : ℝ) : 1 / 100 ≤ redshift rs r := by
  unfold redshift
  have h1 : (0.0001 : ℝ) ≤ max (1 - rs / redshiftDenom r) 0.0001 :=
    le_max_right _ _
  calc (1 / 100 : ℝ) = Real.sqrt 0.0001 := by
        rw [show (0.0001 : ℝ) = (1 / 100) ^ 2 by norm_num,
          Real.sqrt_sq (by norm_num)]
    _ ≤ _ := Real.sqrt_le_sqrt h1

/-- Counterexample for C4: at `rs = 1` the redshift factor does not tend
to `0` as `r → rs⁺` — the inner clamp keeps it at `1/100`. -/
theorem redshift_limit_cex :
    ¬ Filter.Tendsto (fun r => redshift 1 r) (nhdsWithin 1 (Set.Ioi 1))
      (nhds 0) := by
  intro h
  have hev : ∀ᶠ r in nhdsWithin 1 (Set.Ioi 1), redshift 1 r < 1 / 200 :=
    h.eventually_lt_const (by norm_num)
  obtain ⟨r, hr⟩ := hev.exists
  have := redshift_lower 1 r
  linarith

/-- C4 (amended): the redshift factor is strictly between `0` and `1`
for `r > rs > 0`; as `r → rs⁺` it tends to
`sqrt(max(1 - rs/max(rs,1e-3), 1e-4))` — never `0` — and that limit
equals `sqrt(1e-4) = 1/100` whenever `rs ≥ 1e-3`. -/
theorem redshift_bounds_amended :
    (∀ rs r : ℝ, 0 < rs → rs < r →
      0 < redshift rs r ∧ redshift rs r < 1) ∧
    (∀ rs : ℝ, 0 < rs →
      Filter.Tendsto (fun r => redshift rs r) (nhdsWithin rs (Set.Ioi rs))
        (nhds (Real.sqrt (max (1 - rs / max rs 1e-3) 0.0001)))) ∧
    (∀ rs : ℝ, 1e-3 ≤ rs →
      Real.sqrt (max (1 - rs / max rs 1e-3) 0.0001) = 1 / 100) := by
  refine ⟨?_, ?_, ?_⟩
  · intro rs r h0 hlt
    refine ⟨lt_of_lt_of_le (by norm_num) (redshift_lower rs r), ?_⟩
    unfold redshift
    have hd : 0 < redshiftDenom r :=
      lt_of_lt_of_le (by norm_num) (le_max_right r 1e-3)
    have hfrac : 0 < rs / redshiftDenom r := div_pos h0 hd
    have hm : max (1 - rs / redshiftDenom r) 0.0001 < 1 := by
      apply max_lt
      · linarith
      · norm_num
    have hm0 : 0 ≤ max (1 - rs / redshiftDenom r) 0.0001 :=
      le_trans (by norm_num) (le_max_right _ _)
    calc Real.sqrt (max (1 - rs / redshiftDenom r) 0.0001)
        < Real.sqrt 1 := Real.sqrt_lt_sqrt hm0 hm
      _ = 1 := Real.sqrt_one
  · intro rs h0
    rcases le_or_lt 1e-3 rs with hge | hlt
    · have hval : Real.sqrt (max (1 - rs / max rs 1e-3) 0.0001) =
          Real.sqrt 0.0001 := by
        rw [max_eq_left hge, div_self (ne_of_gt h0)]
        norm_num
      rw [hval]
      have hc : rs < rs / (1 - 1e-4) := by
        rw [lt_div_iff (by norm_num)]
        nlinarith
      apply Filter.Tendsto.congr'
        (Filter.eventuallyEq_of_mem (Ioo_mem_nhdsWithin_Ioi' hc) ?_)
        tendsto_const_nhds
      intro r hr
      obtain ⟨hr1, hr2⟩ := hr
      have hden : redshiftDenom r = r := by
        unfold redshiftDenom
        exact max_eq_left (le_trans hge hr1.le)
      have hrpos : 0 < r := lt_trans h0 hr1
      have hsmall : 1 - rs / r ≤ 0.0001 := by
        have : 1 - 1e-4 < rs / r := by
          rw [lt_div_iff hrpos]
          have := (lt_div_iff (show (0:ℝ) < 1 - 1e-4 by norm_num)).mp hr2
          linarith
        norm_num at this ⊢
        linarith
      show Real.sqrt 0.0001 = redshift rs r
      unfold redshift
      rw [hden, max_eq_right hsmall]
    · have hval : max rs 1e-3 = 1e-3 := max_eq_right hlt.le
      rw [hval]
      apply Filter.Tendsto.congr'
        (Filter.eventuallyEq_of_mem (Ioo_mem_nhdsWithin_Ioi' hlt) ?_)
        tendsto_const_nhds
      intro r hr
      obtain ⟨hr1, hr2⟩ := hr
      show Real.sqrt (max (1 - rs / 1e-3) 0.0001) = redshift rs r
      unfold redshift redshiftDenom
      rw [max_eq_right hr2.le]
  · intro rs hrs
    have h0 : 0 < rs := lt_of_lt_of_le (by norm_num) hrs
    rw [max_eq_left hrs, div_self (ne_of_gt h0),
      show max ((1:ℝ) - 1) 0.0001 = (1 / 100) ^ 2 by norm_num,
      Real.sqrt_sq (by norm_num)]

/-- Witness for C4's amended statement at `rs = 1` (and `r = 2` for the
bounds part). -/
theorem redshift_bounds_amended_witness :
    (0 < redshift 1 2 ∧ redshift 1 2 < 1) ∧
    Filter.Tendsto (fun r => redshift 1 r) (nhdsWithin 1 (Set.Ioi 1))
      (nhds (Real.sqrt (max (1 - 1 / max 1 1e-3) 0.0001))) ∧
    Real.sqrt (max (1 - 1 / max 1 1e-3) 0.0001) = 1 / 100 :=
  ⟨redshift_bounds_amended.1 1 2 (by norm_num) (by norm_num),
    redshift_bounds_amended.2.1 1 (by norm_num),
    redshift_bounds_amended.2.2 1 (by norm_num)⟩

/-- Counterexample for C2: with `rs = 1e-6` and the unit ray
`o = (2.6e-6, 0, 0)`, `d = (0, 0, -1)` the impact parameter
`b = 2.6e-6` is above `b_c` but below the `1e-5` divisor guard, so the
rotation angle is `2*rs/1e-5 = 1/5` rather than the claimed
`2*rs/b = 10/13`. -/
theorem bend_angle_guard_cex :
    Vec3.length (⟨0, 0, -1⟩ : Vec3) = 1 ∧
    2.59807621135 * (1e-6 : ℝ) ≤
      Vec3.length (Vec3.cross ⟨2.6e-6, 0, 0⟩ ⟨0, 0, -1⟩) ∧
    (bendRay ⟨2.6e-6, 0, 0⟩ ⟨0, 0, -1⟩ 1e-6).2 = 0 ∧
    Real.arccos (Vec3.dot (bendRay ⟨2.6e-6, 0, 0⟩ ⟨0, 0, -1⟩ 1e-6).1
        ⟨0, 0, -1⟩) ≠
      2 * 1e-6 / Vec3.length (Vec3.cross ⟨2.6e-6, 0, 0⟩ ⟨0, 0, -1⟩) := by
  have hcross : Vec3.cross ⟨2.6e-6, 0, 0⟩ ⟨0, 0, -1⟩ = ⟨0, 2.6e-6, 0⟩ := by
    simp only [Vec3.cross]
    norm_num
  have hdotc : Vec3.dot ⟨0, (2.6e-6 : ℝ), 0⟩ ⟨0, 2.6e-6, 0⟩ = 2.6e-6 * 2.6e-6 := by
    simp [Vec3.dot]
  have hlenc : Vec3.length ⟨0, (2.6e-6 : ℝ), 0⟩ = 2.6e-6 := by
    unfold Vec3.length
    rw [hdotc, Real.sqrt_mul_self (by norm_num)]
  have hrd : Vec3.length (⟨0, 0, -1⟩ : Vec3) = 1 := by
    have : Vec3.dot (⟨0, 0, -1⟩ : Vec3) ⟨0, 0, -1⟩ = 1 := by
      simp [Vec3.dot]
    unfold Vec3.length
    rw [this, Real.sqrt_one]
  have haxis : Vec3.normalize ⟨0, (2.6e-6 : ℝ), 0⟩ = ⟨0, 1, 0⟩ := by
    simp only [Vec3.normalize, hlenc]
    norm_num
  have hflag : bendRay ⟨2.6e-6, 0, 0⟩ ⟨0, 0, -1⟩ 1e-6 =
      (rotateAround ⟨0, 0, -1⟩ ⟨0, 1, 0⟩ (1 / 5), 0) := by
    simp only [bendRay, hcross, hlenc, haxis]
    rw [if_neg (by norm_num)]
    have hbd : bendDenom (2.6e-6 : ℝ) = 1e-5 := by
      unfold bendDenom
      rw [max_eq_right (by norm_num)]
    rw [hbd]
    norm_num
  have hdotrot : Vec3.dot (rotateAround ⟨0, 0, -1⟩ ⟨0, 1, 0⟩ (1 / 5))
      ⟨0, 0, -1⟩ = Real.cos (1 / 5) := by
    apply rotateAround_dot_orig
    · simp [Vec3.dot]
    · simp [Vec3.dot]
  refine ⟨hrd, ?_, ?_, ?_⟩
  · rw [hcross, hlenc]
    norm_num
  · rw [hflag]
  · rw [hflag, hcross, hlenc]
    simp only
    rw [hdotrot, Real.arccos_cos (by norm_num)
      (le_trans (by norm_num) Real.pi_gt_three.le)]
    norm_num

/-- C2 (amended): for a unit-direction ray with `b ≥ b_c` (and `rs > 0`)
the Ray Bender clears the capture flag and returns a unit direction
whose angle from the original direction is `2*rs/max(b, 1e-5)` — which
equals the claimed `2*rs/b` whenever `b ≥ 1e-5`. -/
theorem bend_angle_amended (ro rd : Vec3) (rs : ℝ)
    (hrd : Vec3.length rd = 1) (hrs : 0 < rs)
    (hb : 2.59807621135 * rs ≤ Vec3.length (Vec3.cross ro rd)) :
    (bendRay ro rd rs).2 = 0 ∧
    Vec3.length (bendRay ro rd rs).1 = 1 ∧
    Real.arccos (Vec3.dot (bendRay ro rd rs).1 rd) =
      2 * rs / bendDenom (Vec3.length (Vec3.cross ro rd)) := by
  have hbcpos : 0 < 2.59807621135 * rs := by positivity
  have hbpos : 0 < Vec3.length (Vec3.cross ro rd) := lt_of_lt_of_le hbcpos hb
  have hdotc : 0 < Vec3.dot (Vec3.cross ro rd) (Vec3.cross ro rd) := by
    have h2 := Vec3.length_sq (Vec3.cross ro rd)
    nlinarith
  have hnotlt : ¬ Vec3.length (Vec3.cross ro rd) < 2.59807621135 * rs :=
    not_lt.mpr hb
  have hbr : bendRay ro rd rs =
      (rotateAround rd (Vec3.normalize (Vec3.cross ro rd))
        (2 * rs / bendDenom (Vec3.length (Vec3.cross ro rd))), 0) := by
    simp only [bendRay]
    rw [if_neg hnotlt]
  have hav : Vec3.dot (Vec3.normalize (Vec3.cross ro rd)) rd = 0 := by
    rw [Vec3.dot_normalize_left, Vec3.cross_dot_right, zero_div]
  have haa : Vec3.dot (Vec3.normalize (Vec3.cross ro rd))
      (Vec3.normalize (Vec3.cross ro rd)) = 1 :=
    Vec3.normalize_dot_self _ hdotc
  have hvv : Vec3.dot rd rd = 1 := Vec3.dot_self_of_length_one rd hrd
  have hdenpos : 0 < bendDenom (Vec3.length (Vec3.cross ro rd)) :=
    lt_of_lt_of_le (by norm_num) (le_max_right _ _)
  have hapos : 0 < 2 * rs / bendDenom (Vec3.length (Vec3.cross ro rd)) :=
    div_pos (by linarith) hdenpos
  have haub : 2 * rs / bendDenom (Vec3.length (Vec3.cross ro rd)) ≤ Real.pi := by
    have hge : 2.59807621135 * rs ≤ bendDenom (Vec3.length (Vec3.cross ro rd)) :=
      le_trans hb (le_max_left _ _)
    have h1 : 2 * rs / bendDenom (Vec3.length (Vec3.cross ro rd)) ≤
        2 * rs / (2.59807621135 * rs) :=
      div_le_div_of_nonneg_left (by linarith) hbcpos hge
    have h2 : 2 * rs / (2.59807621135 * rs) = 2 / 2.59807621135 := by
      rw [div_eq_div_iff (by positivity) (by norm_num)]
      ring
    have h3 : (2 / 2.59807621135 : ℝ) ≤ 3 := by norm_num
    linarith [Real.pi_gt_three]
  refine ⟨by rw [hbr], ?_, ?_⟩
  · rw [hbr]
    simp only
    unfold Vec3.length
    rw [rotateAround_normSq rd (Vec3.normalize (Vec3.cross ro rd)) _ hav hvv haa,
      Real.sqrt_one]
  · rw [hbr]
    simp only
    rw [rotateAround_dot_orig rd (Vec3.normalize (Vec3.cross ro rd)) _ hav hvv,
      Real.arccos_cos hapos.le haub]

/-- Witness for C2's amended statement: `o = (4,0,8)`, `d = (0,0,-1)`,
`rs = 1`, giving `b = 4 ≥ b_c`. -/
theorem bend_angle_amended_witness :
    (bendRay ⟨4, 0, 8⟩ ⟨0, 0, -1⟩ 1).2 = 0 ∧
    Vec3.length (bendRay ⟨4, 0, 8⟩ ⟨0, 0, -1⟩ 1).1 = 1 ∧
    Real.arccos (Vec3.dot (bendRay ⟨4, 0, 8⟩ ⟨0, 0, -1⟩ 1).1 ⟨0, 0, -1⟩) =
      2 * 1 / bendDenom (Vec3.length (Vec3.cross ⟨4, 0, 8⟩ ⟨0, 0, -1⟩)) := by
  apply bend_angle_amended
  · have : Vec3.dot (⟨0, 0, -1⟩ : Vec3) ⟨0, 0, -1⟩ = 1 := by
      simp [Vec3.dot]
    unfold Vec3.length
    rw [this, Real.sqrt_one]
  · norm_num
  · have hcross : Vec3.cross ⟨4, 0, 8⟩ ⟨0, 0, -1⟩ = ⟨0, 4, 0⟩ := by
      simp only [Vec3.cross]
      norm_num
    have hdotc : Vec3.dot ⟨0, (4 : ℝ), 0⟩ ⟨0, 4, 0⟩ = 16 := by
      simp [Vec3.dot]
      norm_num
    rw [hcross]
    unfold Vec3.length
    rw [hdotc, show (16 : ℝ) = 4 ^ 2 by norm_num, Real.sqrt_sq (by norm_num)]
    norm_num

/-- Counterexample for C6: the unit direction
`d = (0, -1e-6, -sqrt(1 - 1e-12))` makes the Disk Intersector's
denominator `d.y + 1e-6` exactly zero. -/
theorem disk_denom_cex :
    Vec3.length ⟨0, -(1e-6 : ℝ), -Real.sqrt (1 - 1e-12)⟩ = 1 ∧
    diskDenom ⟨0, -(1e-6 : ℝ), -Real.sqrt (1 - 1e-12)⟩ = 0 := by
  constructor
  · have hs : Real.sqrt (1 - 1e-12) * Real.sqrt (1 - 1e-12) = 1 - 1e-12 :=
      Real.mul_self_sqrt (by norm_num)
    have hd : Vec3.dot ⟨0, -(1e-6 : ℝ), -Real.sqrt (1 - 1e-12)⟩
        ⟨0, -(1e-6 : ℝ), -Real.sqrt (1 - 1e-12)⟩ = 1 := by
      simp only [Vec3.dot]
      rw [show (0 : ℝ) * 0 + -(1e-6 : ℝ) * -(1e-6 : ℝ) +
          -Real.sqrt (1 - 1e-12) * -Real.sqrt (1 - 1e-12) =
          1e-12 + Real.sqrt (1 - 1e-12) * Real.sqrt (1 - 1e-12) by ring, hs]
      norm_num
    unfold Vec3.length
    rw [hd, Real.sqrt_one]
  · unfold diskDenom
    norm_num

/-- C6 (amended): every guarded denominator of the per-pixel evaluation
is nonzero — the deflection, Doppler, redshift and tone-map
denominators unconditionally, the temperature denominator once
`diskInner < diskOuter`, and the Disk Intersector's denominator for
every direction except those with `d.y = -1e-6` (the additive epsilon
shifts, rather than removes, the zero of `d.y + 1e-6`). -/
theorem division_guards_amended :
    (∀ rd : Vec3, rd.y ≠ -(1e-6) → diskDenom rd ≠ 0) ∧
    (∀ b : ℝ, bendDenom b ≠ 0) ∧
    (∀ rs r : ℝ, dopplerDenom (kepV rs r) ≠ 0) ∧
    (∀ diskInner diskOuter : ℝ, diskInner < diskOuter →
      tempDenom diskInner diskOuter ≠ 0) ∧
    (∀ r : ℝ, redshiftDenom r ≠ 0) ∧
    (∀ c : ℝ, 0 ≤ c → c + 1 ≠ 0) := by
  refine ⟨?_, ?_, ?_, ?_, ?_, ?_⟩
  · intro rd hy hcontra
    apply hy
    unfold diskDenom at hcontra
    linarith
  · intro b
    have : (0:ℝ) < bendDenom b :=
      lt_of_lt_of_le (by norm_num) (le_max_right _ _)
    exact ne_of_gt this
  · intro rs r
    have hv := clampR_mem (Real.sqrt (rs / (2 * r))) 0 0.6 (by norm_num)
    unfold dopplerDenom kepV
    apply ne_of_gt
    apply Real.sqrt_pos.mpr
    unfold kepV at hv
    nlinarith [hv.1, hv.2]
  · intro diskInner diskOuter h
    unfold tempDenom
    exact ne_of_gt (sub_pos.mpr h)
  · intro r
    have : (0:ℝ) < redshiftDenom r :=
      lt_of_lt_of_le (by norm_num) (le_max_right _ _)
    exact ne_of_gt this
  · intro c hc
    intro hcontra
    linarith

/-- Witness for C6's amended statement at concrete arguments. -/
theorem division_guards_amended_witness :
    diskDenom ⟨0, 0, -1⟩ ≠ 0 ∧ bendDenom 0 ≠ 0 ∧
    dopplerDenom (kepV 1 2) ≠ 0 ∧ tempDenom 1.2 8 ≠ 0 ∧
    redshiftDenom 5 ≠ 0 ∧ (3 : ℝ) + 1 ≠ 0 :=
  ⟨division_guards_amended.1 ⟨0, 0, -1⟩ (by norm_num),
    division_guards_amended.2.1 0,
    division_guards_amended.2.2.1 1 2,
    division_guards_amended.2.2.2.1 1.2 8 (by norm_num),
    division_guards_amended.2.2.2.2.1 5,
    division_guards_amended.2.2.2.2.2 3 (by norm_num)⟩

/-- A ray starting on the `y = 0` plane always misses the disk plane:
the solved `t` is `0` and the `t > 0` test fails. -/
lemma intersectDisk_of_zero_y (ro rd : Vec3) (h : ro.y = 0) :
    intersectDisk ro rd = none := by
  simp only [intersectDisk, h]
  norm_num

/-- C1: the camera origin has `y = 0`, so the Disk Intersector never
reports a hit, and every non-captured pixel's color is exactly the
starfield plus photon-ring glow, dimmed by the vignette and tone mapped
— the disk/redshift/blend branch is unreachable. -/
theorem no_disk_contribution (ux uy rs cd diskInner diskOuter : ℝ)
    (h : (bendRay ⟨0, 0, cd⟩ (cameraRay ux uy) rs).2 = 0) :
    (∀ d : Vec3, intersectDisk ⟨0, 0, cd⟩ d = none) ∧
    mainColor ux uy rs cd diskInner diskOuter =
      vec4Of (tonemap (Vec3.scale
        (Vec3.add (starfield (bendRay ⟨0, 0, cd⟩ (cameraRay ux uy) rs).1)
          (Vec3.scale ⟨1, 0.9, 0.7⟩
            (ringGlow (Vec3.length (Vec3.cross ⟨0, 0, cd⟩ (cameraRay ux uy)))
              (2.59807621135 * rs) * 0.35)))
        (mixR 0.6 1 (smoothstepR 1.4 0.1 (Real.sqrt (ux ^ 2 + uy ^ 2)))))) 1 := by
  constructor
  · intro d
    exact intersectDisk_of_zero_y ⟨0, 0, cd⟩ d rfl
  · simp only [mainColor]
    rw [if_neg (by rw [h]; norm_num)]
    rw [intersectDisk_of_zero_y ⟨0, 0, cd⟩ _ rfl]

/-- Witness for C1 at the off-axis pixel `uv = (5, 0)` with the default
uniforms, whose ray is not captured. -/
theorem no_disk_contribution_witness :
    intersectDisk ⟨0, 0, 8⟩ ⟨1, 1, 1⟩ = none ∧
    mainColor 5 0 1 8 1.2 8 =
      vec4Of (tonemap (Vec3.scale
        (Vec3.add (starfield (bendRay ⟨0, 0, 8⟩ (cameraRay 5 0) 1).1)
          (Vec3.scale ⟨1, 0.9, 0.7⟩
            (ringGlow (Vec3.length (Vec3.cross ⟨0, 0, 8⟩ (cameraRay 5 0)))
              (2.59807621135 * 1) * 0.35)))
        (mixR 0.6 1 (smoothstepR 1.4 0.1 (Real.sqrt ((5:ℝ) ^ 2 + (0:ℝ) ^ 2)))))) 1 := by
  have hlen : Vec3.length ⟨(5:ℝ), 0, -1.5⟩ = Real.sqrt 27.25 := by
    unfold Vec3.length
    have : Vec3.dot ⟨(5:ℝ), 0, -1.5⟩ ⟨(5:ℝ), 0, -1.5⟩ = 27.25 := by
      simp [Vec3.dot]
      norm_num
    rw [this]
  have hLpos : 0 < Real.sqrt 27.25 := Real.sqrt_pos.mpr (by norm_num)
  have hL6 : Real.sqrt 27.25 ≤ 6 := by
    have h36 : Real.sqrt 36 = 6 := by
      rw [show (36:ℝ) = 6 ^ 2 by norm_num, Real.sqrt_sq (by norm_num)]
    calc Real.sqrt 27.25 ≤ Real.sqrt 36 := Real.sqrt_le_sqrt (by norm_num)
      _ = 6 := h36
  have hcam : cameraRay 5 0 =
      ⟨5 / Real.sqrt 27.25, 0 / Real.sqrt 27.25, -1.5 / Real.sqrt 27.25⟩ := by
    simp only [cameraRay, Vec3.normalize, hlen]
  have hcross : Vec3.cross ⟨0, 0, 8⟩
      (⟨5 / Real.sqrt 27.25, 0 / Real.sqrt 27.25, -1.5 / Real.sqrt 27.25⟩ : Vec3) =
      ⟨0, 40 / Real.sqrt 27.25, 0⟩ := by
    simp only [Vec3.cross]
    norm_num
    ring
  have hb : Vec3.length ⟨0, 40 / Real.sqrt 27.25, 0⟩ = 40 / Real.sqrt 27.25 := by
    unfold Vec3.length
    have : Vec3.dot ⟨(0:ℝ), 40 / Real.sqrt 27.25, 0⟩ ⟨0, 40 / Real.sqrt 27.25, 0⟩ =
        (40 / Real.sqrt 27.25) ^ 2 := by
      simp [Vec3.dot]
      ring
    rw [this, Real.sqrt_sq (by positivity)]
  have hflag : (bendRay ⟨0, 0, 8⟩ (cameraRay 5 0) 1).2 = 0 := by
    rw [hcam]
    simp only [bendRay, hcross, hb]
    rw [if_neg ?_]
    · have hge : (40 : ℝ) / 6 ≤ 40 / Real.sqrt 27.25 :=
        div_le_div_of_nonneg_left (by norm_num) hLpos hL6
      push_neg
      calc (2.59807621135 : ℝ) * 1 ≤ 40 / 6 := by norm_num
        _ ≤ 40 / Real.sqrt 27.25 := hge
  exact ⟨(no_disk_contribution 5 0 1 8 1.2 8 hflag).1 ⟨1, 1, 1⟩,
    (no_disk_contribution 5 0 1 8 1.2 8 hflag).2⟩

/-- C5 (intended behavior, refuted by the code): on the captured branch
the RGB output is the constant `(0,0,0)` for every pixel and every
configuration — the `smoothstep` edge factor multiplies pure black, so
no `b`-dependent 6% brightness modulation reaches the color channels. -/
theorem captured_rgb_black (ux uy rs cd diskInner diskOuter : ℝ)
    (h : 0.5 < (bendRay ⟨0, 0, cd⟩ (cameraRay ux uy) rs).2) :
    (mainColor ux uy rs cd diskInner diskOuter).x = 0 ∧
    (mainColor ux uy rs cd diskInner diskOuter).y = 0 ∧
    (mainColor ux uy rs cd diskInner diskOuter).z = 0 := by
  simp only [mainColor]
  rw [if_pos h]
  simp [Vec4.scale, vec4Of]

/-- Witness for C5: the screen-center pixel with the default uniforms is
captured and its RGB output is exactly black. -/
theorem captured_rgb_black_witness :
    (mainColor 0 0 1 8 1.2 8).x = 0 ∧
    (mainColor 0 0 1 8 1.2 8).y = 0 ∧
    (mainColor 0 0 1 8 1.2 8).z = 0 := by
  apply captured_rgb_black
  have hlen : Vec3.length ⟨(0:ℝ), 0, -1.5⟩ = 1.5 := by
    unfold Vec3.length
    have : Vec3.dot ⟨(0:ℝ), 0, -1.5⟩ ⟨(0:ℝ), 0, -1.5⟩ = 1.5 ^ 2 := by
      simp [Vec3.dot]
      norm_num
    rw [this, Real.sqrt_sq (by norm_num)]
  have hcam : cameraRay 0 0 = ⟨0, 0, -1⟩ := by
    simp only [cameraRay, Vec3.normalize, hlen]
    norm_num
  rw [hcam]
  have hcross : Vec3.cross ⟨0, 0, 8⟩ (⟨0, 0, -1⟩ : Vec3) = ⟨0, 0, 0⟩ := by
    simp only [Vec3.cross]
    norm_num
  have hzero : Vec3.length (⟨0, 0, 0⟩ : Vec3) = 0 := by
    unfold Vec3.length
    have : Vec3.dot (⟨0, 0, 0⟩ : Vec3) ⟨0, 0, 0⟩ = 0 := by
      simp [Vec3.dot]
    rw [this, Real.sqrt_zero]
  simp only [bendRay, hcross, hzero]
  rw [if_pos (by norm_num)]
  norm_num

/-- C10: doubling the resolution from 800×600 to 1600×1200 while keeping
the same proportional pixel position reproduces the identical output
color — the aspect-corrected NDC mapping is invariant under uniform
resolution scaling. -/
theorem resolution_invariance (fx fy rs cd diskInner diskOuter : ℝ) :
    renderPixel (2 * fx) (2 * fy) 1600 1200 rs cd diskInner diskOuter =
      renderPixel fx fy 800 600 rs cd diskInner diskOuter := by
  unfold renderPixel
  have h : computeUV (2 * fx) (2 * fy) 1600 1200 = computeUV fx fy 800 600 := by
    unfold computeUV
    norm_num
    constructor
    · ring
    · ring
  rw [h]

end
